import Mathlib

/-!
Verification of the format-string classifier (`getParamInfo`) and the
per-argument size calculator (`getArgSize` overloads) of
`src/binlog/NanoLogCpp.cpp`, against the repository's specification.

The embedding is shallow: the format string is a `List Char`; the C
`ParamType` enum (underlying type `int32_t`) is embedded as `Int` with the
enum constants as named definitions; `size_t` and `uint64_t` values are
`Nat`; the by-reference out-parameters `previousPrecision` and
`stringBytes` are threaded explicitly through a `SizeEffect` record.

The classifier's `while (pos < N - 1)` loop advances `pos` by at least one
character per iteration, so it performs at most `N - 1` iterations; the
embedding runs the loop body by structural recursion on a fuel counter
instantiated to `N`, which therefore never runs out before the loop guard
fails (certified below by `scanF_fuel_succ` / `scanF_fuel_agree`).  To
settle the bounds-safety claim, every index at which the scanner reads the
format buffer is also collected in a list; reads at or past the string's
length `N` see the NUL terminator (`Char.ofNat 0`), exactly as in the C
caller, which passes `N = strlen(fmt)` on a NUL-terminated buffer.
-/

/-- Reading `fmt[pos]` on the C side: the buffer holds the string's
characters at indices `0 .. fmt.length - 1` followed by the NUL
terminator, so any read at or past `fmt.length` yields `'\0'`. -/
def charAt (fmt : List Char) (pos : Nat) : Char :=
  fmt.getD pos (Char.ofNat 0)

/-- The `ParamType` enum of `NanoLogCpp.h` has underlying type `int32_t`;
non-negative values denote a string with that static precision. -/
abbrev ParamType := Int

/-- Enum constant `INVALID = -6`. -/
def ParamType.INVALID : ParamType := -6

/-- Enum constant `DYNAMIC_WIDTH = -5`. -/
def ParamType.DYNAMIC_WIDTH : ParamType := -5

/-- Enum constant `DYNAMIC_PRECISION = -4`. -/
def ParamType.DYNAMIC_PRECISION : ParamType := -4

/-- Enum constant `NON_STRING = -3`. -/
def ParamType.NON_STRING : ParamType := -3

/-- Enum constant `STRING_WITH_DYNAMIC_PRECISION = -2`. -/
def ParamType.STRING_WITH_DYNAMIC_PRECISION : ParamType := -2

/-- Enum constant `STRING_WITH_NO_PRECISION = -1`. -/
def ParamType.STRING_WITH_NO_PRECISION : ParamType := -1

/-- Enum constant `STRING = 0`. -/
def ParamType.STRING : ParamType := 0

/-- `isTerminal` from `NanoLogCpp.cpp`: the set of conversion characters
that end a printf specifier. -/
def isTerminal (c : Char) : Bool :=
  c = 'd' || c = 'i'
    || c = 'u' || c = 'o'
    || c = 'x' || c = 'X'
    || c = 'f' || c = 'F'
    || c = 'e' || c = 'E'
    || c = 'g' || c = 'G'
    || c = 'a' || c = 'A'
    || c = 'c' || c = 'p'
    || c = '%' || c = 's'
    || c = 'n'

/-- `isFlag` from `NanoLogCpp.cpp`. -/
def isFlag (c : Char) : Bool :=
  c = '-' || c = '+' || c = ' ' || c = '#' || c = '0'

/-- `isLength` from `NanoLogCpp.cpp`. -/
def isLength (c : Char) : Bool :=
  c = 'h' || c = 'l' || c = 'j'
    || c = 'z' || c = 't' || c = 'L'

/-- `isDigit` from `NanoLogCpp.cpp`: `c >= '0' && c <= '9'`.  `Char`
comparison in C and in Lean is comparison of code points, stated here on
`Char.toNat` (the code points of `'0'` and `'9'` are 48 and 57). -/
def isDigit (c : Char) : Bool :=
  48 ≤ c.toNat && c.toNat ≤ 57

/-- Result of one of the character-skipping `while` loops of
`getParamInfo`: the position after the loop and the list of buffer
indices the loop read (each index that was examined, including the final
one whose character made the loop stop). -/
structure SkipResult where
  next : Nat
  reads : List Nat

/-- One of the `while (pred(fmt[pos])) ++pos;` loops of `getParamInfo`,
run on the buffer suffix starting at `pos` (`fmt.drop pos`).  When the
suffix is exhausted the C loop reads the NUL terminator, which satisfies
none of the three predicates used (`isFlag`, `isDigit`, `isLength`), and
stops; the empty-list case records that final read. -/
def skipWhileAux (p : Char → Bool) : List Char → Nat → SkipResult
  | c :: rest, pos =>
    if p c then
      let s := skipWhileAux p rest (pos + 1)
      ⟨s.next, pos :: s.reads⟩
    else ⟨pos, [pos]⟩
  | [], pos => ⟨pos, [pos]⟩

/-- Result of the precision digit-run loop of `getParamInfo`:
`precision = 10 * precision + (fmt[pos] - '0')` accumulated over the
digits, the position after the run, and the indices read. -/
structure DigitsResult where
  precision : Int
  next : Nat
  reads : List Nat

/-- The precision-accumulating digit loop of `getParamInfo`.  The `int`
arithmetic `10 * precision + (fmt[pos] - '0')` is embedded over `Int`
(`'0'.toNat = 48`); a digit run long enough to overflow `int32_t` is
undefined behaviour in the source and out of scope here. -/
def parseDigitsAux : List Char → Nat → Int → DigitsResult
  | c :: rest, pos, acc =>
    if isDigit c then
      let d := parseDigitsAux rest (pos + 1) (10 * acc + ((c.toNat : Int) - 48))
      ⟨d.precision, d.next, pos :: d.reads⟩
    else ⟨acc, pos, [pos]⟩
  | [], pos, acc => ⟨acc, pos, [pos]⟩

/-- Result of the width-consuming step of `getParamInfo`. -/
structure WidthResult where
  params : List ParamType
  next : Nat
  reads : List Nat

/-- The `// Consume width` step of `getParamInfo`: a `*` emits
`DYNAMIC_WIDTH` and consumes one character, otherwise a digit run is
skipped. -/
def consumeWidth (fmt : List Char) (pos : Nat) : WidthResult :=
  if charAt fmt pos = '*' then
    ⟨[ParamType.DYNAMIC_WIDTH], pos + 1, [pos]⟩
  else
    let s := skipWhileAux isDigit (fmt.drop pos) pos
    ⟨[], s.next, s.reads⟩

/-- Result of the precision-consuming step of `getParamInfo`. -/
structure PrecResult where
  params : List ParamType
  hasDynamicPrecision : Bool
  precision : Int
  next : Nat
  reads : List Nat

/-- The `// Consume precision` step of `getParamInfo`: a `.` followed by
`*` emits `DYNAMIC_PRECISION` and records a dynamic precision; a `.`
followed by a (possibly empty) digit run records the parsed value
(starting from 0); no `.` leaves the default precision `-1`. -/
def consumePrecision (fmt : List Char) (pos : Nat) : PrecResult :=
  if charAt fmt pos = '.' then
    if charAt fmt (pos + 1) = '*' then
      ⟨[ParamType.DYNAMIC_PRECISION], true, -1, pos + 2, [pos, pos + 1]⟩
    else
      let d := parseDigitsAux (fmt.drop (pos + 1)) (pos + 1) 0
      ⟨[], false, d.precision, d.next, pos :: (pos + 1) :: d.reads⟩
  else ⟨[], false, -1, pos, [pos]⟩

/-- Result of scanning one format specifier's body. -/
structure SpecResult where
  params : List ParamType
  next : Nat
  reads : List Nat

/-- The body of `getParamInfo`'s loop for one specifier, entered at the
position just after the introducing `%` (and after the `%%` case has been
excluded): consume flags, width, precision, and length characters; then
examine the terminal character, pushing `INVALID` if it is unrecognized,
pushing `INVALID` again for `%n`, and finally pushing the value's own
classification.  `next` is the position after the closing `++pos`;
`reads` collects every index read (repeated reads of the terminal
position are recorded once). -/
def specBody (fmt : List Char) (pos : Nat) : SpecResult :=
  let f := skipWhileAux isFlag (fmt.drop pos) pos
  let w := consumeWidth fmt f.next
  let pr := consumePrecision fmt w.next
  let L := skipWhileAux isLength (fmt.drop pr.next) pr.next
  let c := charAt fmt L.next
  let invalids : List ParamType :=
    (if isTerminal c then [] else [ParamType.INVALID]) ++
      (if c = 'n' then [ParamType.INVALID] else [])
  let fin : ParamType :=
    if c ≠ 's' then ParamType.NON_STRING
    else if pr.hasDynamicPrecision then ParamType.STRING_WITH_DYNAMIC_PRECISION
    else if pr.precision = -1 then ParamType.STRING_WITH_NO_PRECISION
    else pr.precision
  { params := w.params ++ pr.params ++ invalids ++ [fin]
  , next := L.next + 1
  , reads := f.reads ++ w.reads ++ pr.reads ++ L.reads ++ [L.next] }

/-- The `while (pos < N - 1)` loop of `getParamInfo`, by structural
recursion on a fuel counter.  Each iteration advances `pos` by at least
one, so the loop runs at most `N - 1` times and fuel `N` never runs out
before the guard fails (`scanF_fuel_succ` below).  The first component of
the result is the classification sequence, the second the list of buffer
indices read. -/
def scanF : Nat → List Char → Nat → Nat → List ParamType × List Nat
  | 0, _, _, _ => ([], [])
  | fuel + 1, fmt, N, pos =>
    if pos < N - 1 then
      if charAt fmt pos ≠ '%' then
        let r := scanF fuel fmt N (pos + 1)
        (r.1, pos :: r.2)
      else if charAt fmt (pos + 1) = '%' then
        let r := scanF fuel fmt N (pos + 2)
        (r.1, pos :: (pos + 1) :: r.2)
      else
        let s := specBody fmt (pos + 1)
        let r := scanF fuel fmt N s.next
        (s.params ++ r.1, pos :: (pos + 1) :: (s.reads ++ r.2))
    else ([], [])

/-- `getParamInfo(fmt, N)` from `NanoLogCpp.cpp`: the classification
sequence produced by scanning the format string. -/
def getParamInfo (fmt : List Char) (N : Nat) : List ParamType :=
  (scanF N fmt N 0).1

/-- The list of buffer indices `getParamInfo(fmt, N)` reads. -/
def getParamInfoReads (fmt : List Char) (N : Nat) : List Nat :=
  (scanF N fmt N 0).2

/-- `sizeof(void*)` on the LP64 targets the source is written for. -/
def sizeof_voidPtr : Nat := 8

/-- `sizeof(uint32_t)`: the fixed length-prefix width for strings. -/
def sizeof_uint32 : Nat := 4

/-- `sizeof(wchar_t)` on the Linux/LP64 targets of the source. -/
def sizeof_wchar : Nat := 4

/-- The mutated-state-plus-result of one `getArgSize` call: the returned
byte size together with the final values of the by-reference parameters
`previousPrecision` and `stringBytes`. -/
structure SizeEffect where
  size : Nat
  previousPrecision : Nat
  stringBytes : Nat
  deriving DecidableEq

/-- Modelled from the spec: `as_uint64_t` is used by the scalar
`getArgSize` template but its definition is not part of this repository's
sources; the spec describes it as copying "the scalar's runtime value
(widened to a 64-bit magnitude)".  An integral value is widened to its
64-bit magnitude, i.e. reduced modulo `2^64` (two's complement for
negative values). -/
def as_uint64_t (v : Int) : Nat :=
  (v % (2 : Int) ^ 64).toNat

/-- The scalar template `getArgSize<T>`: stores the argument's 64-bit
magnitude into `previousPrecision` when the parameter was classified
`DYNAMIC_PRECISION`, and returns `sizeof(T)`. -/
def getArgSize_scalar (fmtType : ParamType) (previousPrecision stringSize : Nat)
    (sizeofT : Nat) (arg : Int) : SizeEffect :=
  { size := sizeofT
  , previousPrecision :=
      if fmtType = ParamType.DYNAMIC_PRECISION then as_uint64_t arg else previousPrecision
  , stringBytes := stringSize }

/-- The `const void*` specialization of `getArgSize`: always
`sizeof(void*)`, no other effect. -/
def getArgSize_voidPtr (fmtType : ParamType) (previousPrecision stringSize : Nat) :
    SizeEffect :=
  { size := sizeof_voidPtr
  , previousPrecision := previousPrecision
  , stringBytes := stringSize }

/-- The `const char*` specialization of `getArgSize`.  The argument
string is a `List Char` (the C string's characters up to but excluding
the NUL terminator, so `strlen` is `List.length`);
`static_cast<uint32_t>(fmtType)` is reduction modulo `2^32`. -/
def getArgSize_cstr (fmtType : ParamType) (previousPrecision stringBytes0 : Nat)
    (str : List Char) : SizeEffect :=
  if fmtType ≤ ParamType.NON_STRING then
    { size := sizeof_voidPtr
    , previousPrecision := previousPrecision
    , stringBytes := stringBytes0 }
  else
    let sb1 := str.length
    let fmtLength : Nat := (fmtType % (2 : Int) ^ 32).toNat
    let sb2 :=
      if ParamType.STRING ≤ fmtType ∧ fmtLength < sb1 then fmtLength
      else if fmtType = ParamType.STRING_WITH_DYNAMIC_PRECISION ∧ previousPrecision < sb1 then
        previousPrecision
      else sb1
    { size := sb2 + sizeof_uint32
    , previousPrecision := previousPrecision
    , stringBytes := sb2 }

/-- The `const wchar_t*` specialization of `getArgSize`: as the narrow
case, but the truncated element count is converted to bytes by
`stringBytes *= sizeof(wchar_t)` before the length prefix is added. -/
def getArgSize_wstr (fmtType : ParamType) (previousPrecision stringBytes0 : Nat)
    (wstr : List Char) : SizeEffect :=
  if fmtType ≤ ParamType.NON_STRING then
    { size := sizeof_voidPtr
    , previousPrecision := previousPrecision
    , stringBytes := stringBytes0 }
  else
    let sb1 := wstr.length
    let fmtLength : Nat := (fmtType % (2 : Int) ^ 32).toNat
    let sb2 :=
      if ParamType.STRING ≤ fmtType ∧ fmtLength < sb1 then fmtLength
      else if fmtType = ParamType.STRING_WITH_DYNAMIC_PRECISION ∧ previousPrecision < sb1 then
        previousPrecision
      else sb1
    let sb3 := sb2 * sizeof_wchar
    { size := sb3 + sizeof_uint32
    , previousPrecision := previousPrecision
    , stringBytes := sb3 }

/-- Specification-side restatement of the string truncation rule, written
from the spec's words for comparison with the source definition: "if
`paramType` carries a fixed non-negative precision and content length
exceeds it, truncate to that precision; else if `paramType` is
`StringWithDynamicPrecision` and content length exceeds
`runningPrecision`, truncate to `runningPrecision`". -/
def truncatedLen (fmtType : ParamType) (runningPrecision : Nat) (n : Nat) : Nat :=
  if 0 ≤ fmtType ∧ fmtType.toNat < n then fmtType.toNat
  else if fmtType = ParamType.STRING_WITH_DYNAMIC_PRECISION ∧ runningPrecision < n then
    runningPrecision
  else n

/-- The well-formedness predicate behind claim C7: every `INVALID` entry
of a classification sequence is immediately followed by a `NON_STRING`
entry (in particular `INVALID` is never last). -/
def invOK : List Int → Bool
  | [] => true
  | [x] => x != ParamType.INVALID
  | x :: y :: rest =>
    (x != ParamType.INVALID || y == ParamType.NON_STRING) && invOK (y :: rest)

/-- The characters of `"hello"`. -/
def hello : List Char := ['h', 'e', 'l', 'l', 'o']

/-- The characters of `"hello world"` (11 bytes). -/
def helloWorld : List Char :=
  ['h', 'e', 'l', 'l', 'o', ' ', 'w', 'o', 'r', 'l', 'd']

/-- C5: the classifier maps `"%d"` to `[NonString]`, `"%s"` to
`[StringWithNoPrecision]`, `"%.5s"` to `[String(5)]`, `"%.*s"` to
`[DynamicPrecision, StringWithDynamicPrecision]`, and `"%*d"` to
`[DynamicWidth, NonString]`, each scanned with its own length. -/
theorem C5_classifier_examples :
    getParamInfo ['%', 'd'] 2 = [ParamType.NON_STRING] ∧
    getParamInfo ['%', 's'] 2 = [ParamType.STRING_WITH_NO_PRECISION] ∧
    getParamInfo ['%', '.', '5', 's'] 4 = [(5 : ParamType)] ∧
    getParamInfo ['%', '.', '*', 's'] 4 =
      [ParamType.DYNAMIC_PRECISION, ParamType.STRING_WITH_DYNAMIC_PRECISION] ∧
    getParamInfo ['%', '*', 'd'] 3 = [ParamType.DYNAMIC_WIDTH, ParamType.NON_STRING] := by
  decide

/-- C1 counterexample: scanning `"%n"` with its length does not give the
one-element sequence `[Invalid]`; the code pushes `INVALID` and then
falls through to push `NON_STRING` for the same specifier. -/
theorem C1_counterexample :
    getParamInfo ['%', 'n'] 2 = [ParamType.INVALID, ParamType.NON_STRING] ∧
    getParamInfo ['%', 'n'] 2 ≠ [ParamType.INVALID] := by
  decide

/-- C1 (amended): for `"%n"` and `"%q"` (scanned with their lengths) the
classifier returns exactly the two-element sequence
`[Invalid, NonString]`. -/
theorem C1_amended :
    getParamInfo ['%', 'n'] 2 = [ParamType.INVALID, ParamType.NON_STRING] ∧
    getParamInfo ['%', 'q'] 2 = [ParamType.INVALID, ParamType.NON_STRING] := by
  decide

/-- C2 counterexample: scanning `"%5"` (length 2) reads buffer index 2,
the NUL terminator's slot, so the scan is not confined to indices
`0 .. N - 1`. -/
theorem C2_counterexample :
    ¬ (∀ i ∈ getParamInfoReads ['%', '5'] 2, i < 2) := by
  decide

/-- C3: sizing a 4-byte scalar with runtime value 3 classified
`DynamicPrecision` sets `previousPrecision` to 3, and sizing `"hello"`
classified `StringWithDynamicPrecision` with that `previousPrecision`
truncates the content to 3 bytes, writes 3 into the `stringBytes` slot,
and returns 3 plus the `uint32_t` length-prefix width. -/
theorem C3_dynamic_precision_threading :
    ∀ prev sb : Nat,
      getArgSize_scalar ParamType.DYNAMIC_PRECISION prev sb 4 3 =
        { size := 4, previousPrecision := 3, stringBytes := sb } ∧
      getArgSize_cstr ParamType.STRING_WITH_DYNAMIC_PRECISION
          (getArgSize_scalar ParamType.DYNAMIC_PRECISION prev sb 4 3).previousPrecision
          0 hello =
        { size := 3 + sizeof_uint32, previousPrecision := 3, stringBytes := 3 } := by
  intro prev sb
  have h : getArgSize_scalar ParamType.DYNAMIC_PRECISION prev sb 4 3 =
      { size := 4, previousPrecision := 3, stringBytes := sb } := rfl
  refine ⟨h, ?_⟩
  rw [h]
  show getArgSize_cstr ParamType.STRING_WITH_DYNAMIC_PRECISION 3 0 hello =
    { size := 3 + sizeof_uint32, previousPrecision := 3, stringBytes := 3 }
  decide

/-- C4: sizing `"hello world"` (11 bytes) with classification `String(5)`
writes content byte length 5 and returns `5 + sizeof(uint32_t)`; with
`StringWithNoPrecision` it writes 11 and returns `11 + sizeof(uint32_t)`. -/
theorem C4_static_truncation :
    ∀ prev sb : Nat,
      getArgSize_cstr (5 : ParamType) prev sb helloWorld =
        { size := 5 + sizeof_uint32, previousPrecision := prev, stringBytes := 5 } ∧
      getArgSize_cstr ParamType.STRING_WITH_NO_PRECISION prev sb helloWorld =
        { size := 11 + sizeof_uint32, previousPrecision := prev, stringBytes := 11 } := by
  intro prev sb
  constructor
  · simp only [getArgSize_cstr, helloWorld]
    norm_num [ParamType.NON_STRING, ParamType.STRING,
      ParamType.STRING_WITH_DYNAMIC_PRECISION]
    decide
  · simp only [getArgSize_cstr, helloWorld]
    norm_num [ParamType.NON_STRING, ParamType.STRING,
      ParamType.STRING_WITH_DYNAMIC_PRECISION, ParamType.STRING_WITH_NO_PRECISION]

/-- C6: a `void*` argument is sized to exactly `sizeof(void*)` for every
`paramType` with no effect on the scratch state; a narrow or wide string
argument whose `paramType` is at or below the `NON_STRING` boundary is
likewise sized to exactly `sizeof(void*)`, without measuring the string
or touching the scratch state. -/
theorem C6_pointer_collapse :
    (∀ (fmtType : ParamType) (prev sb : Nat),
        getArgSize_voidPtr fmtType prev sb =
          { size := sizeof_voidPtr, previousPrecision := prev, stringBytes := sb }) ∧
    (∀ (fmtType : ParamType) (prev sb : Nat) (str : List Char),
        fmtType ≤ ParamType.NON_STRING →
        getArgSize_cstr fmtType prev sb str =
          { size := sizeof_voidPtr, previousPrecision := prev, stringBytes := sb }) ∧
    (∀ (fmtType : ParamType) (prev sb : Nat) (wstr : List Char),
        fmtType ≤ ParamType.NON_STRING →
        getArgSize_wstr fmtType prev sb wstr =
          { size := sizeof_voidPtr, previousPrecision := prev, stringBytes := sb }) := by
  refine ⟨fun _ _ _ => rfl, fun ft prev sb str h => ?_, fun ft prev sb wstr h => ?_⟩
  · simp [getArgSize_cstr, h]
  · simp [getArgSize_wstr, h]

/-- C6 witness: the pointer-collapse theorem applied at concrete inputs. -/
theorem C6_pointer_collapse_witness :
    getArgSize_voidPtr ParamType.DYNAMIC_WIDTH 5 7 =
      { size := 8, previousPrecision := 5, stringBytes := 7 } ∧
    getArgSize_cstr ParamType.INVALID 5 7 ['a', 'b'] =
      { size := 8, previousPrecision := 5, stringBytes := 7 } ∧
    getArgSize_wstr ParamType.NON_STRING 5 7 ['a'] =
      { size := 8, previousPrecision := 5, stringBytes := 7 } :=
  ⟨C6_pointer_collapse.1 ParamType.DYNAMIC_WIDTH 5 7,
   C6_pointer_collapse.2.1 ParamType.INVALID 5 7 ['a', 'b'] (by decide),
   C6_pointer_collapse.2.2 ParamType.NON_STRING 5 7 ['a'] (by decide)⟩

/-- C9: the scalar `getArgSize<T>` returns exactly `sizeof(T)` for every
`paramType`; it stores the argument's 64-bit magnitude into
`previousPrecision` exactly when the `paramType` is `DYNAMIC_PRECISION`,
leaves `previousPrecision` unchanged otherwise, and never touches
`stringBytes`; and the stored magnitude always fits in 64 bits. -/
theorem C9_scalar_frame :
    (∀ (fmtType : ParamType) (prev sb sizeofT : Nat) (arg : Int),
        getArgSize_scalar fmtType prev sb sizeofT arg =
          { size := sizeofT
          , previousPrecision :=
              if fmtType = ParamType.DYNAMIC_PRECISION then as_uint64_t arg else prev
          , stringBytes := sb }) ∧
    (∀ v : Int, as_uint64_t v < 2 ^ 64) := by
  refine ⟨fun _ _ _ _ _ => rfl, fun v => ?_⟩
  have h1 : 0 ≤ v % (2 : Int) ^ 64 := Int.emod_nonneg v (by norm_num)
  have h2 : v % (2 : Int) ^ 64 < (2 : Int) ^ 64 := Int.emod_lt_of_pos v (by norm_num)
  have e : (2 : Int) ^ 64 = 18446744073709551616 := by norm_num
  have e2 : (2 : Nat) ^ 64 = 18446744073709551616 := by norm_num
  rw [e] at h1 h2
  simp only [as_uint64_t, e, e2]
  omega

/-- Reads at or past the string's length see the NUL terminator. -/
theorem charAt_of_le (fmt : List Char) (pos : Nat) (h : fmt.length ≤ pos) :
    charAt fmt pos = Char.ofNat 0 := by
  simp [charAt, List.getD, List.getElem?_eq_none h]

/-- A read that sees a character other than the NUL terminator is a read
inside the string. -/
theorem lt_length_of_charAt_ne (fmt : List Char) (pos : Nat)
    (h : charAt fmt pos ≠ Char.ofNat 0) : pos < fmt.length := by
  by_contra hc
  exact h (charAt_of_le fmt pos (by omega))

/-- The character-skipping loops never move the position backwards. -/
theorem skipWhileAux_next_ge (p : Char → Bool) (l : List Char) :
    ∀ pos : Nat, pos ≤ (skipWhileAux p l pos).next := by
  induction l with
  | nil => intro pos; simp [skipWhileAux]
  | cons c rest ih =>
    intro pos
    by_cases h : p c = true
    · have := ih (pos + 1)
      simp only [skipWhileAux, h, if_true]
      omega
    · simp [skipWhileAux, h]

/-- The character-skipping loops stop at or before the end of the suffix
they were given. -/
theorem skipWhileAux_next_le (p : Char → Bool) (l : List Char) :
    ∀ pos : Nat, (skipWhileAux p l pos).next ≤ pos + l.length := by
  induction l with
  | nil => intro pos; simp [skipWhileAux]
  | cons c rest ih =>
    intro pos
    by_cases h : p c = true
    · have := ih (pos + 1)
      simp only [skipWhileAux, h, if_true, List.length_cons]
      omega
    · simp [skipWhileAux, h]

/-- Every index a character-skipping loop reads lies between its starting
position and the end of the suffix it was given. -/
theorem skipWhileAux_reads_le (p : Char → Bool) (l : List Char) :
    ∀ pos : Nat, ∀ i ∈ (skipWhileAux p l pos).reads, i ≤ pos + l.length := by
  induction l with
  | nil => intro pos i hi; simp [skipWhileAux] at hi; omega
  | cons c rest ih =>
    intro pos i hi
    by_cases h : p c = true
    · simp only [skipWhileAux, h, if_true, List.mem_cons] at hi
      rcases hi with hi | hi
      · omega
      · have := ih (pos + 1) i hi
        simp only [List.length_cons]
        omega
    · simp [skipWhileAux, h] at hi
      omega

/-- A digit character has code point between 48 and 57. -/
theorem isDigit_toNat (c : Char) (h : isDigit c = true) :
    48 ≤ c.toNat ∧ c.toNat ≤ 57 := by
  simpa [isDigit] using h

/-- The precision digit loop never moves the position backwards. -/
theorem parseDigitsAux_next_ge (l : List Char) :
    ∀ (pos : Nat) (acc : Int), pos ≤ (parseDigitsAux l pos acc).next := by
  induction l with
  | nil => intro pos acc; simp [parseDigitsAux]
  | cons c rest ih =>
    intro pos acc
    by_cases h : isDigit c = true
    · have := ih (pos + 1) (10 * acc + ((c.toNat : Int) - 48))
      simp only [parseDigitsAux, h, if_true]
      omega
    · simp [parseDigitsAux, h]

/-- The precision digit loop stops at or before the end of its suffix. -/
theorem parseDigitsAux_next_le (l : List Char) :
    ∀ (pos : Nat) (acc : Int), (parseDigitsAux l pos acc).next ≤ pos + l.length := by
  induction l with
  | nil => intro pos acc; simp [parseDigitsAux]
  | cons c rest ih =>
    intro pos acc
    by_cases h : isDigit c = true
    · have := ih (pos + 1) (10 * acc + ((c.toNat : Int) - 48))
      simp only [parseDigitsAux, h, if_true, List.length_cons]
      omega
    · simp [parseDigitsAux, h]

/-- Every index the precision digit loop reads lies at or before the end
of its suffix. -/
theorem parseDigitsAux_reads_le (l : List Char) :
    ∀ (pos : Nat) (acc : Int), ∀ i ∈ (parseDigitsAux l pos acc).reads,
      i ≤ pos + l.length := by
  induction l with
  | nil => intro pos acc i hi; simp [parseDigitsAux] at hi; omega
  | cons c rest ih =>
    intro pos acc i hi
    by_cases h : isDigit c = true
    · simp only [parseDigitsAux, h, if_true, List.mem_cons] at hi
      rcases hi with hi | hi
      · omega
      · have := ih (pos + 1) (10 * acc + ((c.toNat : Int) - 48)) i hi
        simp only [List.length_cons]
        omega
    · simp [parseDigitsAux, h] at hi
      omega

/-- Accumulating decimal digits onto a non-negative value stays
non-negative. -/
theorem parseDigitsAux_nonneg (l : List Char) :
    ∀ (pos : Nat) (acc : Int), 0 ≤ acc → 0 ≤ (parseDigitsAux l pos acc).precision := by
  induction l with
  | nil => intro pos acc h; simpa [parseDigitsAux] using h
  | cons c rest ih =>
    intro pos acc hacc
    by_cases h : isDigit c = true
    · have hd := (isDigit_toNat c h).1
      have hd48 : (48 : Int) ≤ (c.toNat : Int) := by exact_mod_cast hd
      have := ih (pos + 1) (10 * acc + ((c.toNat : Int) - 48)) (by omega)
      simp only [parseDigitsAux, h, if_true]
      exact this
    · simpa [parseDigitsAux, h] using hacc

/-- The width step never moves the position backwards. -/
theorem consumeWidth_next_ge (fmt : List Char) (pos : Nat) :
    pos ≤ (consumeWidth fmt pos).next := by
  unfold consumeWidth
  by_cases h : charAt fmt pos = '*'
  · simp [h]
  · simp only [h, if_false]
    exact skipWhileAux_next_ge isDigit (fmt.drop pos) pos

/-- Starting inside the buffer, the width step stays inside it. -/
theorem consumeWidth_next_le (fmt : List Char) (pos : Nat) (h : pos ≤ fmt.length) :
    (consumeWidth fmt pos).next ≤ fmt.length := by
  unfold consumeWidth
  by_cases hc : charAt fmt pos = '*'
  · have : pos < fmt.length := lt_length_of_charAt_ne fmt pos (by rw [hc]; decide)
    simp [hc]; omega
  · have := skipWhileAux_next_le isDigit (fmt.drop pos) pos
    simp only [List.length_drop] at this
    simp only [hc, if_false]
    omega

/-- Starting inside the buffer, the width step reads at most up to the
NUL terminator's index. -/
theorem consumeWidth_reads_le (fmt : List Char) (pos : Nat) (h : pos ≤ fmt.length) :
    ∀ i ∈ (consumeWidth fmt pos).reads, i ≤ fmt.length := by
  intro i hi
  unfold consumeWidth at hi
  by_cases hc : charAt fmt pos = '*'
  · have : pos < fmt.length := lt_length_of_charAt_ne fmt pos (by rw [hc]; decide)
    simp [hc] at hi
    omega
  · simp only [hc, if_false] at hi
    have := skipWhileAux_reads_le isDigit (fmt.drop pos) pos i hi
    simp only [List.length_drop] at this
    omega

/-- The precision step never moves the position backwards. -/
theorem consumePrecision_next_ge (fmt : List Char) (pos : Nat) :
    pos ≤ (consumePrecision fmt pos).next := by
  unfold consumePrecision
  by_cases h1 : charAt fmt pos = '.'
  · by_cases h2 : charAt fmt (pos + 1) = '*'
    · simp [h1, h2]
    · have := parseDigitsAux_next_ge (fmt.drop (pos + 1)) (pos + 1) 0
      simp only [h1, h2, if_true, if_false]
      omega
  · simp [h1]

/-- Starting inside the buffer, the precision step stays inside it. -/
theorem consumePrecision_next_le (fmt : List Char) (pos : Nat) (h : pos ≤ fmt.length) :
    (consumePrecision fmt pos).next ≤ fmt.length := by
  unfold consumePrecision
  by_cases h1 : charAt fmt pos = '.'
  · have hp : pos < fmt.length := lt_length_of_charAt_ne fmt pos (by rw [h1]; decide)
    by_cases h2 : charAt fmt (pos + 1) = '*'
    · have : pos + 1 < fmt.length :=
        lt_length_of_charAt_ne fmt (pos + 1) (by rw [h2]; decide)
      simp [h1, h2]
      omega
    · have := parseDigitsAux_next_le (fmt.drop (pos + 1)) (pos + 1) 0
      simp only [List.length_drop] at this
      simp only [h1, h2, if_true, if_false]
      omega
  · simp [h1]
    omega

/-- Starting inside the buffer, the precision step reads at most up to
the NUL terminator's index. -/
theorem consumePrecision_reads_le (fmt : List Char) (pos : Nat) (h : pos ≤ fmt.length) :
    ∀ i ∈ (consumePrecision fmt pos).reads, i ≤ fmt.length := by
  intro i hi
  unfold consumePrecision at hi
  by_cases h1 : charAt fmt pos = '.'
  · have hp : pos < fmt.length := lt_length_of_charAt_ne fmt pos (by rw [h1]; decide)
    by_cases h2 : charAt fmt (pos + 1) = '*'
    · simp [h1, h2] at hi
      rcases hi with hi | hi <;> omega
    · simp only [h1, h2, if_true, if_false, List.mem_cons] at hi
      rcases hi with hi | hi | hi
      · omega
      · omega
      · have := parseDigitsAux_reads_le (fmt.drop (pos + 1)) (pos + 1) 0 i hi
        simp only [List.length_drop] at this
        omega
  · simp [h1] at hi
    omega

/-- The parsed precision is either the `-1` default or non-negative. -/
theorem consumePrecision_precision (fmt : List Char) (pos : Nat) :
    0 ≤ (consumePrecision fmt pos).precision ∨
      (consumePrecision fmt pos).precision = -1 := by
  unfold consumePrecision
  by_cases h1 : charAt fmt pos = '.'
  · by_cases h2 : charAt fmt (pos + 1) = '*'
    · simp [h1, h2]
    · have := parseDigitsAux_nonneg (fmt.drop (pos + 1)) (pos + 1) 0 le_rfl
      simp only [h1, h2, if_true, if_false]
      exact Or.inl this
  · simp [h1]

/-- A specifier body always advances past at least the character after
the `%`. -/
theorem specBody_next_ge (fmt : List Char) (pos : Nat) :
    pos + 1 ≤ (specBody fmt pos).next := by
  simp only [specBody]
  set f := skipWhileAux isFlag (fmt.drop pos) pos with hf
  set w := consumeWidth fmt f.next with hw
  set pr := consumePrecision fmt w.next with hpr
  set L := skipWhileAux isLength (fmt.drop pr.next) pr.next with hL
  have hf1 : pos ≤ f.next := by rw [hf]; exact skipWhileAux_next_ge _ _ _
  have hw1 : f.next ≤ w.next := by rw [hw]; exact consumeWidth_next_ge _ _
  have hpr1 : w.next ≤ pr.next := by rw [hpr]; exact consumePrecision_next_ge _ _
  have hL1 : pr.next ≤ L.next := by rw [hL]; exact skipWhileAux_next_ge _ _ _
  omega

/-- Starting inside the buffer, a specifier body ends at most one past
the NUL terminator's index, and every index it reads is at most the NUL
terminator's index. -/
theorem specBody_facts (fmt : List Char) (pos : Nat) (h : pos ≤ fmt.length) :
    (specBody fmt pos).next ≤ fmt.length + 1 ∧
      ∀ i ∈ (specBody fmt pos).reads, i ≤ fmt.length := by
  simp only [specBody]
  set f := skipWhileAux isFlag (fmt.drop pos) pos with hf
  set w := consumeWidth fmt f.next with hw
  set pr := consumePrecision fmt w.next with hpr
  set L := skipWhileAux isLength (fmt.drop pr.next) pr.next with hL
  have hf2 : f.next ≤ fmt.length := by
    rw [hf]
    have := skipWhileAux_next_le isFlag (fmt.drop pos) pos
    simp only [List.length_drop] at this
    omega
  have hf3 : ∀ i ∈ f.reads, i ≤ fmt.length := by
    rw [hf]
    intro i hi
    have := skipWhileAux_reads_le isFlag (fmt.drop pos) pos i hi
    simp only [List.length_drop] at this
    omega
  have hw2 : w.next ≤ fmt.length := by rw [hw]; exact consumeWidth_next_le _ _ hf2
  have hw3 : ∀ i ∈ w.reads, i ≤ fmt.length := by
    rw [hw]; exact consumeWidth_reads_le _ _ hf2
  have hpr2 : pr.next ≤ fmt.length := by rw [hpr]; exact consumePrecision_next_le _ _ hw2
  have hpr3 : ∀ i ∈ pr.reads, i ≤ fmt.length := by
    rw [hpr]; exact consumePrecision_reads_le _ _ hw2
  have hL2 : L.next ≤ fmt.length := by
    rw [hL]
    have := skipWhileAux_next_le isLength (fmt.drop pr.next) pr.next
    simp only [List.length_drop] at this
    omega
  have hL3 : ∀ i ∈ L.reads, i ≤ fmt.length := by
    rw [hL]
    intro i hi
    have := skipWhileAux_reads_le isLength (fmt.drop pr.next) pr.next i hi
    simp only [List.length_drop] at this
    omega
  refine ⟨by omega, ?_⟩
  intro i hi
  simp only [List.mem_append, List.mem_singleton] at hi
  rcases hi with (((hi | hi) | hi) | hi) | hi
  · exact hf3 i hi
  · exact hw3 i hi
  · exact hpr3 i hi
  · exact hL3 i hi
  · omega

/-- Adding one unit of surplus fuel changes nothing: with at least
`N - 1 - pos` units the scanner's fuel never runs out before the loop
guard `pos < N - 1` fails, so fuel only bounds the iteration count and
does not alter the loop's semantics. -/
theorem scanF_fuel_succ (fmt : List Char) (N : Nat) :
    ∀ f pos : Nat, N ≤ f + pos + 1 → scanF (f + 1) fmt N pos = scanF f fmt N pos := by
  intro f
  induction f with
  | zero =>
    intro pos h
    simp [scanF, show ¬ pos < N - 1 by omega]
  | succ f ih =>
    intro pos h
    by_cases hp : pos < N - 1
    · rw [scanF.eq_2 fmt N pos (f + 1), scanF.eq_2 fmt N pos f]
      by_cases h1 : charAt fmt pos = '%'
      · have h1' : ¬ (charAt fmt pos ≠ '%') := not_not_intro h1
        by_cases h2 : charAt fmt (pos + 1) = '%'
        · rw [if_pos hp, if_pos hp, if_neg h1', if_neg h1',
            if_pos h2, if_pos h2, ih (pos + 2) (by omega)]
        · have hnext := specBody_next_ge fmt (pos + 1)
          rw [if_pos hp, if_pos hp, if_neg h1', if_neg h1', if_neg h2, if_neg h2]
          dsimp only
          rw [ih (specBody fmt (pos + 1)).next (by omega)]
      · rw [if_pos hp, if_pos hp, if_pos h1, if_pos h1, ih (pos + 1) (by omega)]
    · rw [scanF.eq_2 fmt N pos (f + 1), scanF.eq_2 fmt N pos f, if_neg hp, if_neg hp]

/-- Any surplus fuel beyond `N - 1 - pos` units is irrelevant. -/
theorem scanF_fuel_agree (fmt : List Char) (N : Nat) :
    ∀ k f pos : Nat, N ≤ f + pos + 1 → scanF (f + k) fmt N pos = scanF f fmt N pos := by
  intro k
  induction k with
  | zero => intro f pos _; rfl
  | succ k ih =>
    intro f pos h
    have e1 : f + (k + 1) = (f + k) + 1 := by omega
    rw [e1, scanF_fuel_succ fmt N (f + k) pos (by omega), ih f pos h]

/-- The fuel instantiation `N` used by `getParamInfo` is exact: running
the scanner with any fuel at least `N - 1` gives the same sequence. -/
theorem getParamInfo_any_fuel (fmt : List Char) (N fuel : Nat) (h : N ≤ fuel + 1) :
    (scanF fuel fmt N 0).1 = getParamInfo fmt N := by
  unfold getParamInfo
  have e1 : scanF fuel fmt N 0 = scanF (N - 1) fmt N 0 := by
    have efuel : fuel = (N - 1) + (fuel - (N - 1)) := by omega
    rw [efuel]
    exact scanF_fuel_agree fmt N (fuel - (N - 1)) (N - 1) 0 (by omega)
  have e2 := scanF_fuel_agree fmt N (N - (N - 1)) (N - 1) 0 (by omega)
  rw [show (N - 1) + (N - (N - 1)) = N by omega] at e2
  rw [e1, e2]

/-- Scanning a string with `N` equal to its length reads no buffer index
beyond `N`, the NUL terminator's slot. -/
theorem scanF_reads_le (fmt : List Char) :
    ∀ fuel pos : Nat, ∀ i ∈ (scanF fuel fmt fmt.length pos).2, i ≤ fmt.length := by
  intro fuel
  induction fuel with
  | zero => intro pos i hi; simp [scanF] at hi
  | succ fuel ih =>
    intro pos i hi
    by_cases hp : pos < fmt.length - 1
    · rw [scanF.eq_2 fmt fmt.length pos fuel, if_pos hp] at hi
      by_cases h1 : charAt fmt pos = '%'
      · have h1' : ¬ (charAt fmt pos ≠ '%') := not_not_intro h1
        rw [if_neg h1'] at hi
        by_cases h2 : charAt fmt (pos + 1) = '%'
        · rw [if_pos h2] at hi
          dsimp only at hi
          simp only [List.mem_cons] at hi
          rcases hi with rfl | rfl | hi
          · omega
          · omega
          · exact ih (pos + 2) i hi
        · rw [if_neg h2] at hi
          dsimp only at hi
          simp only [List.mem_cons, List.mem_append] at hi
          have hsb := (specBody_facts fmt (pos + 1) (by omega)).2
          rcases hi with rfl | rfl | hi | hi
          · omega
          · omega
          · exact hsb i hi
          · exact ih (specBody fmt (pos + 1)).next i hi
      · rw [if_pos h1] at hi
        dsimp only at hi
        simp only [List.mem_cons] at hi
        rcases hi with rfl | hi
        · omega
        · exact ih (pos + 1) i hi
    · rw [scanF.eq_2 fmt fmt.length pos fuel, if_neg hp] at hi
      simp at hi

/-- C2 (amended): scanning a format string of length `N` (with `N` the
string's length, as at the call sites) terminates — the scanner is a
total function — and reads only buffer indices `0 .. N`; the sole index
that may be read beyond the characters `0 .. N - 1` is index `N`, the
NUL terminator, so the scan never reads past the terminated buffer's
end (in particular a format string ending in a lone trailing `%` is
scanned safely). -/
theorem C2_amended (fmt : List Char) (i : Nat)
    (h : i ∈ getParamInfoReads fmt fmt.length) : i ≤ fmt.length :=
  scanF_reads_le fmt fmt.length 0 i h

/-- C2 witness: the read-bound theorem applied to the scan of `"%5"`,
whose read of index 2 is the NUL terminator's slot. -/
theorem C2_amended_witness : 2 ∈ getParamInfoReads ['%', '5'] 2 ∧ 2 ≤ 2 :=
  ⟨by decide, C2_amended ['%', '5'] 2 (by decide)⟩

/-- Prepending a non-`INVALID` entry preserves the C7 invariant. -/
theorem invOK_cons (x : Int) (l : List Int) (hx : x ≠ ParamType.INVALID)
    (hl : invOK l = true) : invOK (x :: l) = true := by
  cases l with
  | nil => simp [invOK, hx]
  | cons y rest =>
    simp only [invOK, Bool.and_eq_true, Bool.or_eq_true, bne_iff_ne, beq_iff_eq]
    exact ⟨Or.inl hx, hl⟩

/-- Prepending an `INVALID` entry directly followed by `NON_STRING`
preserves the C7 invariant. -/
theorem invOK_inv_cons (l : List Int)
    (hl : invOK (ParamType.NON_STRING :: l) = true) :
    invOK (ParamType.INVALID :: ParamType.NON_STRING :: l) = true := by
  simp only [invOK, Bool.and_eq_true, Bool.or_eq_true, bne_iff_ne, beq_iff_eq]
  refine ⟨Or.inr ?_, hl⟩
  simp

/-- On a list satisfying `invOK`, the entry after any `INVALID` entry is
`NON_STRING`. -/
theorem invOK_get? :
    ∀ l : List Int, invOK l = true →
      ∀ i : Nat, l.get? i = some ParamType.INVALID →
        l.get? (i + 1) = some ParamType.NON_STRING
  | [], _, i, h => by simp at h
  | [x], hOK, i, h => by
    cases i with
    | zero =>
      have hx : x = ParamType.INVALID := by simpa using h
      simp [invOK, hx] at hOK
    | succ j => simp at h
  | x :: y :: rest, hOK, i, h => by
    have hOK' : (x ≠ ParamType.INVALID ∨ y = ParamType.NON_STRING) ∧
        invOK (y :: rest) = true := by
      simpa only [invOK, Bool.and_eq_true, Bool.or_eq_true, bne_iff_ne, beq_iff_eq]
        using hOK
    cases i with
    | zero =>
      have hx : x = ParamType.INVALID := by simpa using h
      rcases hOK'.1 with hne | hy
      · exact absurd hx hne
      · simpa using hy
    | succ j =>
      have := invOK_get? (y :: rest) hOK'.2 j (by simpa using h)
      simpa using this

/-- A specifier block, prepended to a list satisfying the C7 invariant,
preserves it: the block is optional `DYNAMIC_WIDTH`, then optional
`DYNAMIC_PRECISION`, then an optional `INVALID` that is present only when
the closing entry is `NON_STRING`, then a closing non-`INVALID` entry. -/
theorem invOK_block (wp pp iv : List Int) (x : Int) (rest : List Int)
    (hw : wp = [] ∨ wp = [ParamType.DYNAMIC_WIDTH])
    (hp : pp = [] ∨ pp = [ParamType.DYNAMIC_PRECISION])
    (hi : iv = [] ∨ (iv = [ParamType.INVALID] ∧ x = ParamType.NON_STRING))
    (hx : x ≠ ParamType.INVALID)
    (hrest : invOK rest = true) :
    invOK (wp ++ (pp ++ (iv ++ x :: rest))) = true := by
  have hbase : invOK (iv ++ x :: rest) = true := by
    have hxr : invOK (x :: rest) = true := invOK_cons x rest hx hrest
    rcases hi with rfl | ⟨rfl, rfl⟩
    · simpa using hxr
    · simpa using invOK_inv_cons rest hxr
  have hpp : invOK (pp ++ (iv ++ x :: rest)) = true := by
    rcases hp with rfl | rfl
    · simpa using hbase
    · simpa using invOK_cons ParamType.DYNAMIC_PRECISION _ (by decide) hbase
  rcases hw with rfl | rfl
  · simpa using hpp
  · simpa using invOK_cons ParamType.DYNAMIC_WIDTH _ (by decide) hpp

/-- The width step contributes either nothing or one `DYNAMIC_WIDTH`. -/
theorem consumeWidth_params (fmt : List Char) (pos : Nat) :
    (consumeWidth fmt pos).params = [] ∨
      (consumeWidth fmt pos).params = [ParamType.DYNAMIC_WIDTH] := by
  unfold consumeWidth
  split_ifs <;> simp

/-- The precision step contributes either nothing or one
`DYNAMIC_PRECISION`. -/
theorem consumePrecision_params (fmt : List Char) (pos : Nat) :
    (consumePrecision fmt pos).params = [] ∨
      (consumePrecision fmt pos).params = [ParamType.DYNAMIC_PRECISION] := by
  unfold consumePrecision
  split_ifs <;> simp

/-- A specifier block's entries, prepended to a list satisfying the C7
invariant, preserve it: in particular the block's optional `INVALID` is
always directly followed by the block's closing `NON_STRING`. -/
theorem specBody_params_invOK (fmt : List Char) (pos : Nat) (rest : List Int)
    (hrest : invOK rest = true) :
    invOK ((specBody fmt pos).params ++ rest) = true := by
  simp only [specBody]
  set f := skipWhileAux isFlag (fmt.drop pos) pos with hf
  set w := consumeWidth fmt f.next with hw
  set pr := consumePrecision fmt w.next with hpr
  set L := skipWhileAux isLength (fmt.drop pr.next) pr.next with hL
  set c := charAt fmt L.next with hc
  set iv := (if isTerminal c then ([] : List ParamType) else [ParamType.INVALID]) ++
      (if c = 'n' then [ParamType.INVALID] else []) with hiv
  set fin := if c ≠ 's' then ParamType.NON_STRING
    else if pr.hasDynamicPrecision then ParamType.STRING_WITH_DYNAMIC_PRECISION
    else if pr.precision = -1 then ParamType.STRING_WITH_NO_PRECISION
    else pr.precision with hfin
  have hprec : 0 ≤ pr.precision ∨ pr.precision = -1 := by
    have := consumePrecision_precision fmt w.next
    rw [← hpr] at this
    exact this
  have hfin_ne : fin ≠ ParamType.INVALID := by
    rw [hfin]
    split_ifs
    · decide
    · decide
    · decide
    · show ¬ pr.precision = ParamType.INVALID
      simp only [ParamType.INVALID]
      rcases hprec with hge | he
      · omega
      · omega
  have hiv_shape : iv = [] ∨ (iv = [ParamType.INVALID] ∧ fin = ParamType.NON_STRING) := by
    by_cases ht : isTerminal c = true
    · by_cases hn : c = 'n'
      · have hns : c ≠ 's' := by rw [hn]; decide
        right
        refine ⟨?_, ?_⟩
        · rw [hiv, hn]; decide
        · rw [hfin]; simp [hns]
      · left
        rw [hiv]; simp [ht, hn]
    · have hn : c ≠ 'n' := by
        intro hcn
        rw [hcn] at ht
        exact ht (by decide)
      have hs : c ≠ 's' := by
        intro hcs
        rw [hcs] at ht
        exact ht (by decide)
      right
      refine ⟨?_, ?_⟩
      · rw [hiv]; simp [ht, hn]
      · rw [hfin]; simp [hs]
  have hw_shape : w.params = [] ∨ w.params = [ParamType.DYNAMIC_WIDTH] := by
    have := consumeWidth_params fmt f.next
    rw [← hw] at this
    exact this
  have hp_shape : pr.params = [] ∨ pr.params = [ParamType.DYNAMIC_PRECISION] := by
    have := consumePrecision_params fmt w.next
    rw [← hpr] at this
    exact this
  simp only [List.append_assoc, List.singleton_append]
  exact invOK_block w.params pr.params iv fin rest hw_shape hp_shape hiv_shape
    hfin_ne hrest

/-- Every classification sequence the scanner produces satisfies the C7
invariant. -/
theorem scanF_params_invOK (fmt : List Char) (N : Nat) :
    ∀ fuel pos : Nat, invOK (scanF fuel fmt N pos).1 = true := by
  intro fuel
  induction fuel with
  | zero => intro pos; rfl
  | succ fuel ih =>
    intro pos
    by_cases hp : pos < N - 1
    · rw [scanF.eq_2 fmt N pos fuel, if_pos hp]
      by_cases h1 : charAt fmt pos = '%'
      · have h1' : ¬ (charAt fmt pos ≠ '%') := not_not_intro h1
        rw [if_neg h1']
        by_cases h2 : charAt fmt (pos + 1) = '%'
        · rw [if_pos h2]
          dsimp only
          exact ih (pos + 2)
        · rw [if_neg h2]
          dsimp only
          exact specBody_params_invOK fmt (pos + 1) _ (ih (specBody fmt (pos + 1)).next)
      · rw [if_pos h1]
        dsimp only
        exact ih (pos + 1)
    · rw [scanF.eq_2 fmt N pos fuel, if_neg hp]
      rfl

/-- C7: in every sequence the classifier returns, an `Invalid` entry is
immediately followed by a `NonString` entry (so it is never the last
contribution of its specifier): a malformed specifier or a `%n`
specifier pushes `Invalid` and then falls through to also push
`NonString` for the same specifier. -/
theorem C7_invalid_followed (fmt : List Char) (N i : Nat)
    (h : (getParamInfo fmt N).get? i = some ParamType.INVALID) :
    (getParamInfo fmt N).get? (i + 1) = some ParamType.NON_STRING :=
  invOK_get? (getParamInfo fmt N) (scanF_params_invOK fmt N N 0) i h

/-- C7 witness: the invariant applied to the scan of `"%q"`. -/
theorem C7_invalid_followed_witness :
    (getParamInfo ['%', 'q'] 2).get? 0 = some ParamType.INVALID ∧
      (getParamInfo ['%', 'q'] 2).get? 1 = some ParamType.NON_STRING :=
  ⟨by decide, C7_invalid_followed ['%', 'q'] 2 0 (by decide)⟩

/-- A format string containing no `%` yields no `%` at any read
position: positions inside the string hold its characters, positions at
or past its end hold the NUL terminator. -/
theorem charAt_ne_pct (fmt : List Char) (h : '%' ∉ fmt) (p : Nat) :
    charAt fmt p ≠ '%' := by
  by_cases hp : p < fmt.length
  · have hc : charAt fmt p = fmt[p] := by
      simp [charAt, List.getD, List.getElem?_eq_getElem hp]
    rw [hc]
    intro he
    exact h (he ▸ List.getElem_mem hp)
  · rw [charAt_of_le fmt p (by omega)]
    decide

/-- Scanning a string without `%` produces no classifications, from any
starting position and with any fuel. -/
theorem scanF_no_pct (fmt : List Char) (N : Nat) (h : '%' ∉ fmt) :
    ∀ fuel pos : Nat, (scanF fuel fmt N pos).1 = [] := by
  intro fuel
  induction fuel with
  | zero => intro pos; rfl
  | succ fuel ih =>
    intro pos
    by_cases hp : pos < N - 1
    · rw [scanF.eq_2 fmt N pos fuel, if_pos hp, if_pos (charAt_ne_pct fmt h pos)]
      dsimp only
      exact ih (pos + 1)
    · rw [scanF.eq_2 fmt N pos fuel, if_neg hp]

/-- C10: a format string containing no `%` classifies to the empty
sequence (for any length argument); a `%%` occurrence is a literal
percent — when the scan meets `%%` it just advances two characters and
contributes no entry — and in particular `"%%"` classifies to the empty
sequence. -/
theorem C10_literal_and_comment :
    (∀ (fmt : List Char) (N : Nat), '%' ∉ fmt → getParamInfo fmt N = []) ∧
    (∀ (fuel : Nat) (fmt : List Char) (N pos : Nat),
        pos < N - 1 → charAt fmt pos = '%' → charAt fmt (pos + 1) = '%' →
        (scanF (fuel + 1) fmt N pos).1 = (scanF fuel fmt N (pos + 2)).1) ∧
    getParamInfo ['%', '%'] 2 = [] := by
  refine ⟨fun fmt N h => scanF_no_pct fmt N h N 0,
    fun fuel fmt N pos hp h1 h2 => ?_, by decide⟩
  rw [scanF.eq_2 fmt N pos fuel, if_pos hp, if_neg (not_not_intro h1), if_pos h2]

/-- C10 witness: the theorem applied to the `%`-free string `"abc"` and
to the `%%` occurrence inside `"x%%yz"` at position 1. -/
theorem C10_literal_and_comment_witness :
    getParamInfo ['a', 'b', 'c'] 3 = [] ∧
      (scanF 5 ['x', '%', '%', 'y', 'z'] 5 1).1 =
        (scanF 4 ['x', '%', '%', 'y', 'z'] 5 3).1 :=
  ⟨C10_literal_and_comment.1 ['a', 'b', 'c'] 3 (by decide),
   C10_literal_and_comment.2.1 4 ['x', '%', '%', 'y', 'z'] 5 1 (by decide) (by decide)
     (by decide)⟩

/-- C8: for every wide string whose `paramType` is above the
`NON_STRING` boundary (and within the `int32_t` range of the enum), the
source computes exactly the spec's rule: truncate the measured element
count against the applicable precision — the fixed non-negative
precision carried by the `paramType`, else `runningPrecision` for
`StringWithDynamicPrecision` — then multiply by `sizeof(wchar_t)`, write
the resulting byte count into the `stringBytes` slot, and return it plus
the `uint32_t` length-prefix width. -/
theorem C8_wide_refinement :
    ∀ (fmtType : ParamType) (prev sb : Nat) (wstr : List Char),
      ParamType.NON_STRING < fmtType → fmtType < 2 ^ 31 →
      getArgSize_wstr fmtType prev sb wstr =
        { size := truncatedLen fmtType prev wstr.length * sizeof_wchar + sizeof_uint32
        , previousPrecision := prev
        , stringBytes := truncatedLen fmtType prev wstr.length * sizeof_wchar } := by
  intro ft prev sb wstr h1 h2
  have hns : ¬ ft ≤ ParamType.NON_STRING := not_le.mpr h1
  unfold getArgSize_wstr truncatedLen
  rw [if_neg hns]
  dsimp only
  by_cases h0 : (0 : Int) ≤ ft
  · have hlt : ft < (2 : Int) ^ 32 := lt_trans h2 (by norm_num)
    rw [Int.emod_eq_of_lt h0 hlt]
    simp only [ParamType.STRING]
  · have hcond : ¬ (ParamType.STRING ≤ ft ∧ (ft % (2 : Int) ^ 32).toNat < wstr.length) := by
      intro hc
      exact h0 (by simpa [ParamType.STRING] using hc.1)
    have hcond2 : ¬ ((0 : Int) ≤ ft ∧ ft.toNat < wstr.length) := fun hc => h0 hc.1
    rw [if_neg hcond, if_neg hcond2]

/-- C8 witness: the refinement applied to the wide string `"abc"` with
static precision 2 and scratch precision 9. -/
theorem C8_wide_refinement_witness :
    getArgSize_wstr 2 9 0 ['a', 'b', 'c'] =
      { size := 2 * sizeof_wchar + sizeof_uint32
      , previousPrecision := 9
      , stringBytes := 2 * sizeof_wchar } :=
  C8_wide_refinement 2 9 0 ['a', 'b', 'c'] (by decide) (by decide)
